import Mathlib

/-!
Verification of the ingestion and retrieval pipeline of the RAG document
question-answering system: the chunking policy, the retrieval context
assembly, the ingestion driver control flow, the HTTP storage URL
construction, and the PDF text extraction.
-/

set_option maxRecDepth 10000

namespace RagSpec

/-! ### Chunker

The indexing driver (`src/backend/rag.py`, `main_indexing`) splits extracted
text with `TokenTextSplitter(chunk_size=500, chunk_overlap=50).split_text`.
-/

def chunk_size : Nat := 500

def chunk_overlap : Nat := 50

/-- Modelled from the spec: the chunker component (section 4.3) — the
implementation behind `TokenTextSplitter.split_text` is library code not
present in this repository's sources.  It is the deterministic sliding-window
splitter over the token sequence of the text: starting at token index 0, emit
the window of `chunk_size` tokens at the current start, stop after the window
that reaches the end of the token sequence, otherwise advance the start by
`chunk_size - chunk_overlap` tokens.  The `fuel` argument bounds the number of
loop iterations; since the stride is positive, `ids.length` iterations always
suffice, so `split_text` below runs the loop with that fuel. -/
def splitLoop (ids : List α) : Nat → Nat → List (List α)
  | 0, _ => []
  | fuel + 1, start =>
    if start < ids.length then
      if start + chunk_size < ids.length then
        (ids.drop start).take chunk_size ::
          splitLoop ids fuel (start + (chunk_size - chunk_overlap))
      else
        [(ids.drop start).take chunk_size]
    else []

/-- Modelled from the spec: token-level splitting of a text, represented by
its token sequence (section 4.3). -/
def split_text (ids : List α) : List (List α) :=
  splitLoop ids ids.length 0

/-- The last `n` tokens of a chunk (the suffix of length `n`). -/
def lastN (n : Nat) (l : List α) : List α :=
  l.drop (l.length - n)

lemma splitLoop_getElem? (ids : List α) :
    ∀ (fuel start k : Nat),
      ids.length - start ≤ fuel * (chunk_size - chunk_overlap) →
      k < (splitLoop ids fuel start).length →
      (splitLoop ids fuel start)[k]? =
        some ((ids.drop (start + (chunk_size - chunk_overlap) * k)).take chunk_size) := by
  intro fuel
  induction fuel with
  | zero =>
    intro start k hinv hk
    simp [splitLoop] at hk
  | succ fuel ih =>
    intro start k hinv hk
    by_cases h1 : start < ids.length
    · by_cases h2 : start + chunk_size < ids.length
      · simp only [splitLoop, if_pos h1, if_pos h2] at hk ⊢
        match k with
        | 0 => simp
        | k + 1 =>
          simp only [List.getElem?_cons_succ]
          have hmul : (fuel + 1) * (chunk_size - chunk_overlap)
              = fuel * (chunk_size - chunk_overlap) + (chunk_size - chunk_overlap) := by
            ring
          have hinv2 : ids.length - (start + (chunk_size - chunk_overlap))
              ≤ fuel * (chunk_size - chunk_overlap) := by omega
          have hk2 : k < (splitLoop ids fuel (start + (chunk_size - chunk_overlap))).length := by
            simp only [List.length_cons] at hk
            omega
          have := ih (start + (chunk_size - chunk_overlap)) k hinv2 hk2
          rw [this]
          have harith : start + (chunk_size - chunk_overlap)
              + (chunk_size - chunk_overlap) * k
              = start + (chunk_size - chunk_overlap) * (k + 1) := by
            ring
          rw [harith]
      · simp only [splitLoop, if_pos h1, if_neg h2] at hk ⊢
        simp only [List.length_singleton] at hk
        have hk0 : k = 0 := by omega
        subst hk0
        simp
    · simp [splitLoop, if_neg h1] at hk

lemma splitLoop_not_final_full (ids : List α) :
    ∀ (fuel start k : Nat),
      ids.length - start ≤ fuel * (chunk_size - chunk_overlap) →
      k + 1 < (splitLoop ids fuel start).length →
      start + (chunk_size - chunk_overlap) * k + chunk_size < ids.length := by
  intro fuel
  induction fuel with
  | zero =>
    intro start k hinv hk
    simp [splitLoop] at hk
  | succ fuel ih =>
    intro start k hinv hk
    by_cases h1 : start < ids.length
    · by_cases h2 : start + chunk_size < ids.length
      · simp only [splitLoop, if_pos h1, if_pos h2, List.length_cons] at hk
        match k with
        | 0 => simpa using h2
        | k + 1 =>
          have hmul : (fuel + 1) * (chunk_size - chunk_overlap)
              = fuel * (chunk_size - chunk_overlap) + (chunk_size - chunk_overlap) := by
            ring
          have hinv2 : ids.length - (start + (chunk_size - chunk_overlap))
              ≤ fuel * (chunk_size - chunk_overlap) := by omega
          have hk2 : k + 1 < (splitLoop ids fuel (start + (chunk_size - chunk_overlap))).length := by
            omega
          have := ih (start + (chunk_size - chunk_overlap)) k hinv2 hk2
          have harith : start + (chunk_size - chunk_overlap)
              + (chunk_size - chunk_overlap) * k
              = start + (chunk_size - chunk_overlap) * (k + 1) := by
            ring
          omega
      · simp only [splitLoop, if_pos h1, if_neg h2, List.length_singleton] at hk
        omega
    · simp [splitLoop, if_neg h1] at hk

lemma split_text_inv (ids : List α) :
    ids.length - 0 ≤ ids.length * (chunk_size - chunk_overlap) := by
  have h1 : (1 : Nat) ≤ chunk_size - chunk_overlap := by decide
  have := Nat.mul_le_mul_left ids.length h1
  simpa using this

/-- Claim C1: for every input text, in the chunk sequence produced by the
chunker (chunk size 500 tokens, overlap 50 tokens), for every pair of adjacent
chunks the last 50 tokens of the earlier chunk equal the first 50 tokens of
the later chunk; the exception for the final chunk is vacuous since a final
chunk has no successor. -/
theorem c1_adjacent_chunk_overlap (ids : List α) (i : Nat) (ci cj : List α)
    (hi : (split_text ids)[i]? = some ci)
    (hj : (split_text ids)[i + 1]? = some cj) :
    lastN chunk_overlap ci = cj.take chunk_overlap := by
  have hinv := split_text_inv ids
  have hjlen : i + 1 < (split_text ids).length := by
    by_contra hcon
    push_neg at hcon
    rw [split_text] at hj
    rw [List.getElem?_eq_none (by simpa [split_text] using hcon)] at hj
    exact Option.noConfusion hj
  have hilen : i < (split_text ids).length := by omega
  have hfull := splitLoop_not_final_full ids ids.length 0 i hinv
    (by simpa [split_text] using hjlen)
  have hci := splitLoop_getElem? ids ids.length 0 i hinv
    (by simpa [split_text] using hilen)
  have hcj := splitLoop_getElem? ids ids.length 0 (i + 1) hinv
    (by simpa [split_text] using hjlen)
  rw [split_text] at hi hj
  rw [hci] at hi
  rw [hcj] at hj
  have hci2 : ci = (ids.drop (450 * i)).take 500 := by
    have := Option.some.inj hi
    simpa [chunk_size, chunk_overlap] using this.symm
  have hcj2 : cj = (ids.drop (450 * i + 450)).take 500 := by
    have := Option.some.inj hj
    have harith : 0 + (chunk_size - chunk_overlap) * (i + 1) = 450 * i + 450 := by
      simp [chunk_size, chunk_overlap]
      omega
    rw [harith] at this
    exact this.symm
  have hfull2 : 450 * i + 500 < ids.length := by
    simpa [chunk_size, chunk_overlap] using hfull
  subst hci2
  subst hcj2
  have hlen_ci : ((ids.drop (450 * i)).take 500).length = 500 := by
    simp only [List.length_take, List.length_drop]
    omega
  rw [lastN, hlen_ci]
  show ((ids.drop (450 * i)).take 500).drop 450 = _
  rw [List.drop_take, List.drop_drop, List.take_take]
  rw [List.take_eq_take]
  simp only [chunk_overlap, List.length_take, List.length_drop]
  omega

/-- Witness for Claim C1 at a concrete 501-token text, which splits into two
chunks [0, 500) and [450, 501). -/
theorem c1_adjacent_chunk_overlap_witness :
    lastN chunk_overlap ((List.range 501).take 500) =
      (((List.range 501).drop 450).take 500).take chunk_overlap :=
  c1_adjacent_chunk_overlap (List.range 501) 0 _ _ (by decide) (by decide)

/-- Claim C9: chunking the empty text yields zero chunks, and chunking any
non-empty text of fewer than `chunk_size` tokens yields exactly one chunk,
equal to the whole input. -/
theorem c9_empty_and_short_text (ids : List α) :
    split_text ([] : List α) = [] ∧
      (ids ≠ [] → ids.length < chunk_size → split_text ids = [ids]) := by
  constructor
  · rfl
  · intro hne hshort
    match hlen : ids.length with
    | 0 =>
      exact absurd (List.eq_nil_of_length_eq_zero hlen) hne
    | f + 1 =>
      rw [split_text, hlen]
      have h1 : 0 < ids.length := by omega
      have h2 : ¬ 0 + chunk_size < ids.length := by
        simp only [chunk_size] at hshort ⊢
        omega
      simp only [splitLoop, if_pos h1, if_neg h2, List.drop_zero]
      rw [List.take_of_length_le (by omega)]

/-- Witness for Claim C9 at the empty text and at a concrete 3-token text. -/
theorem c9_empty_and_short_text_witness :
    split_text ([] : List Nat) = [] ∧ split_text [7, 8, 9] = [[7, 8, 9]] :=
  ⟨(c9_empty_and_short_text ([] : List Nat)).1,
    (c9_empty_and_short_text [7, 8, 9]).2 (by decide) (by decide)⟩

/-! ### Retrieval assembly (src/backend/api.py, rag_api)

The query endpoint runs a similarity search and then, enumerating the result
list, accumulates a labeled context string, an id-to-path mapping and a
detailed result list.
-/

/-- One similarity-search result: its page content and its `path` metadata
attribute, absent when the stored record carries no such attribute
(`res.metadata.get` in the source). -/
structure SearchResult where
  page_content : String
  metadata_path : Option String
deriving DecidableEq

/-- One entry of the detailed context list returned by the endpoint. -/
structure CtxEntry where
  id : Nat
  path : String
  content : String
deriving DecidableEq

/-- The accumulator of the assembly loop in `rag_api`. -/
structure RagState where
  list_res : List CtxEntry
  context : String
  mappings : List (Nat × String)
deriving DecidableEq

/-- One iteration of the assembly loop of `rag_api`: given the rank `i` and
the result `res`, extend the context string, record `mappings[i]` and append
the detailed entry. -/
def ragStep (st : RagState) (ir : Nat × SearchResult) : RagState :=
  { list_res := st.list_res ++
      [⟨ir.1, ir.2.metadata_path.getD "", ir.2.page_content⟩],
    context := st.context ++ "[" ++ toString ir.1 ++ "]\n" ++ ir.2.page_content ++ "\n\n",
    mappings := st.mappings ++ [(ir.1, ir.2.metadata_path.getD "")] }

/-- The assembly loop of `rag_api` over the enumerated search results. -/
def rag_api_assemble (results : List SearchResult) : RagState :=
  results.enum.foldl ragStep ⟨[], "", []⟩

/-- The detailed entries contributed by the results `rs` when enumeration
starts at rank `k`. -/
def builtEntries (k : Nat) : List SearchResult → List CtxEntry
  | [] => []
  | r :: rs => ⟨k, r.metadata_path.getD "", r.page_content⟩ :: builtEntries (k + 1) rs

/-- The mapping entries contributed by the results `rs` when enumeration
starts at rank `k`. -/
def builtMappings (k : Nat) : List SearchResult → List (Nat × String)
  | [] => []
  | r :: rs => (k, r.metadata_path.getD "") :: builtMappings (k + 1) rs

/-- The context text contributed by the results `rs` when enumeration starts
at rank `k`. -/
def builtContext (k : Nat) : List SearchResult → String
  | [] => ""
  | r :: rs => "[" ++ toString k ++ "]\n" ++ r.page_content ++ "\n\n" ++ builtContext (k + 1) rs

lemma assemble_general :
    ∀ (rs : List SearchResult) (k : Nat) (st : RagState),
      (List.enumFrom k rs).foldl ragStep st =
        ⟨st.list_res ++ builtEntries k rs,
          st.context ++ builtContext k rs,
          st.mappings ++ builtMappings k rs⟩ := by
  intro rs
  induction rs with
  | nil => intro k st; simp [List.enumFrom, builtEntries, builtContext, builtMappings]
  | cons r rs ih =>
    intro k st
    simp only [List.enumFrom, List.foldl_cons]
    rw [ih]
    simp [ragStep, builtEntries, builtContext, builtMappings, String.append_assoc]

lemma rag_api_assemble_eq (results : List SearchResult) :
    rag_api_assemble results =
      ⟨builtEntries 0 results, builtContext 0 results, builtMappings 0 results⟩ := by
  rw [rag_api_assemble, List.enum, assemble_general]
  simp

lemma builtMappings_keys :
    ∀ (rs : List SearchResult) (k : Nat),
      (builtMappings k rs).map Prod.fst = List.range' k rs.length := by
  intro rs
  induction rs with
  | nil => intro k; simp [builtMappings]
  | cons r rs ih =>
    intro k
    simp [builtMappings, List.range'_succ, ih]

lemma builtEntries_length :
    ∀ (rs : List SearchResult) (k : Nat), (builtEntries k rs).length = rs.length := by
  intro rs
  induction rs with
  | nil => intro k; simp [builtEntries]
  | cons r rs ih => intro k; simp [builtEntries, ih]

lemma builtEntries_getElem? :
    ∀ (rs : List SearchResult) (k i : Nat),
      (builtEntries k rs)[i]? =
        rs[i]?.map (fun r => ⟨k + i, r.metadata_path.getD "", r.page_content⟩) := by
  intro rs
  induction rs with
  | nil => intro k i; simp [builtEntries]
  | cons r rs ih =>
    intro k i
    match i with
    | 0 => simp [builtEntries]
    | i + 1 =>
      simp only [builtEntries, List.getElem?_cons_succ, ih]
      have : k + 1 + i = k + (i + 1) := by omega
      rw [this]

lemma builtMappings_lookup :
    ∀ (rs : List SearchResult) (k j : Nat) (hj : j < rs.length),
      List.lookup (k + j) (builtMappings k rs) =
        rs[j]?.map (fun r => r.metadata_path.getD "") := by
  intro rs
  induction rs with
  | nil => intro k j hj; simp at hj
  | cons r rs ih =>
    intro k j hj
    match j with
    | 0 => simp [builtMappings, List.lookup]
    | j + 1 =>
      have hne : (k + (j + 1) == k) = false := by
        simp only [beq_eq_false_iff_ne, ne_eq]
        omega
      simp only [builtMappings, List.lookup, hne, List.getElem?_cons_succ]
      have : k + (j + 1) = (k + 1) + j := by omega
      rw [this]
      exact ih (k + 1) j (by simpa using hj)

/-- Claim C2: the keys of the id-to-path mapping built for a result set of
size k are exactly 0, 1, ..., k-1 in order (hence each appears exactly once),
and the detailed context list preserves rank order: it has one entry per
result and the entry at position i has id i. -/
theorem c2_citation_mapping_ranks (results : List SearchResult) :
    (rag_api_assemble results).mappings.map Prod.fst = List.range results.length ∧
      (rag_api_assemble results).list_res.length = results.length ∧
      ∀ (i : Nat) (hi : i < (rag_api_assemble results).list_res.length),
        ((rag_api_assemble results).list_res.get ⟨i, hi⟩).id = i := by
  rw [rag_api_assemble_eq]
  refine ⟨?_, ?_, ?_⟩
  · rw [builtMappings_keys, List.range_eq_range']
  · exact builtEntries_length results 0
  · intro i hi
    have h1 : (builtEntries 0 results).get ⟨i, hi⟩ =
        ((builtEntries 0 results)[i]?).get (by simp [List.getElem?_eq_getElem hi]) := by
      simp [List.getElem?_eq_getElem hi]
    rw [h1]
    have h2 := builtEntries_getElem? results 0 i
    have hi2 : i < results.length := by
      simpa [builtEntries_length] using hi
    rw [List.getElem?_eq_getElem hi2] at h2
    simp [h2]

/-- Witness for Claim C2 at a concrete result set of size 2. -/
theorem c2_citation_mapping_ranks_witness :
    (rag_api_assemble [⟨"alpha", some "a.pdf"⟩, ⟨"beta", none⟩]).mappings.map Prod.fst =
        List.range 2 ∧
      ((rag_api_assemble [⟨"alpha", some "a.pdf"⟩, ⟨"beta", none⟩]).list_res.get
        ⟨1, by decide⟩).id = 1 :=
  ⟨(c2_citation_mapping_ranks [⟨"alpha", some "a.pdf"⟩, ⟨"beta", none⟩]).1,
    (c2_citation_mapping_ranks [⟨"alpha", some "a.pdf"⟩, ⟨"beta", none⟩]).2.2 1 (by decide)⟩

/-- Claim C10: a retrieval result whose stored record lacks a `path` metadata
attribute does not make the response fail: the id-to-path mapping maps its id
to the empty string, and its detailed entry carries the empty path. -/
theorem c10_missing_path_defaults_empty (results : List SearchResult) (i : Nat)
    (hi : i < results.length)
    (hnone : (results.get ⟨i, hi⟩).metadata_path = none) :
    List.lookup i (rag_api_assemble results).mappings = some "" ∧
      (rag_api_assemble results).list_res[i]? =
        some ⟨i, "", (results.get ⟨i, hi⟩).page_content⟩ := by
  rw [rag_api_assemble_eq]
  constructor
  · have h := builtMappings_lookup results 0 i hi
    rw [List.getElem?_eq_getElem hi] at h
    simp only [List.get_eq_getElem] at hnone
    simpa [hnone] using h
  · have h := builtEntries_getElem? results 0 i
    rw [List.getElem?_eq_getElem hi] at h
    simp only [List.get_eq_getElem] at hnone ⊢
    simp [h, hnone]

/-- Witness for Claim C10 at a concrete result set whose second record has no
path metadata. -/
theorem c10_missing_path_defaults_empty_witness :
    List.lookup 1 (rag_api_assemble [⟨"alpha", some "a.pdf"⟩, ⟨"beta", none⟩]).mappings =
        some "" ∧
      (rag_api_assemble [⟨"alpha", some "a.pdf"⟩, ⟨"beta", none⟩]).list_res[1]? =
        some ⟨1, "", "beta"⟩ :=
  c10_missing_path_defaults_empty [⟨"alpha", some "a.pdf"⟩, ⟨"beta", none⟩] 1
    (by decide) (by decide)

/-! ### Ingestion driver (src/backend/rag.py, main_indexing)

The driver deletes the existing vector collection when present, creates a new
one with dimensionality 768 and cosine distance, then processes each listed
document inside a per-document try/except, with an inner try/finally that
deletes the temporary file when its path lies in the temp directory.  The
externally-effectful stages of one document are modelled by their outcomes;
an `Except.error` value is the Python exception raised at that stage.
-/

/-- The per-document data of one ingestion run: the document reference and
the outcome of each stage — retrieval (`storage.get_document`, returning a
local file path), text extraction, chunking (`split_text`) and the
embed-and-upsert call (`qdrant.add_texts`). -/
structure DocRun where
  name : String
  fetch : Except String String
  extract : Except String String
  chunkOut : Except String (List String)
  upsert : Except String Unit

/-- Observable events of an ingestion run, in program order. -/
inductive Event where
  | deleteCollection : Event
  | createCollection (dim : Nat) (distance : String) : Event
  | fetched (doc : String) (tmp : String) : Event
  | upserted (doc : String) (chunks : List String) : Event
  | released (doc : String) (tmp : String) : Event
  | skippedUnsupported (doc : String) : Event
  | failureLogged (doc : String) (msg : String) : Event
deriving DecidableEq

/-- The extension dispatch of `main_indexing`: a document is handled when its
name ends with one of the five supported suffixes (`str.endswith`, expressed
on the character sequence of the name). -/
def supportedExtension (name : String) : Bool :=
  (".pdf".toList.isSuffixOf name.toList) || (".txt".toList.isSuffixOf name.toList) ||
    (".docx".toList.isSuffixOf name.toList) || (".pptx".toList.isSuffixOf name.toList) ||
    (".csv".toList.isSuffixOf name.toList)

/-- Substring containment, as Python's `in` on strings. -/
def containsSub (pat : List Char) : List Char → Bool
  | [] => pat.isPrefixOf []
  | c :: t => pat.isPrefixOf (c :: t) || containsSub pat t

/-- The guard of the cleanup in the `finally` block: the temporary file is
deleted only when the temp directory name occurs in its path
(`tempfile.gettempdir() in temp_file`). -/
def inTempDir (tmp : String) : Bool :=
  containsSub "/tmp".toList tmp.toList

/-- The inner try body for one document, after the document is materialized:
extension dispatch, extraction, chunking and upsert.  Returns the emitted
events and the message of the exception escaping the body, if any.  The
unsupported-extension branch is the `continue` statement: a skip log, no
exception. -/
def innerBody (d : DocRun) : List Event × Option String :=
  if supportedExtension d.name then
    match d.extract with
    | .error e => ([], some e)
    | .ok _content =>
      match d.chunkOut with
      | .error e => ([], some e)
      | .ok chunks =>
        match d.upsert with
        | .error e => ([], some e)
        | .ok _ => ([.upserted d.name chunks], none)
  else ([.skippedUnsupported d.name], none)

/-- One document's processing: the outer try wrapping retrieval, the inner
body, the `finally` cleanup (which also runs when the body raises or when the
unsupported branch continues), and the outer per-document exception
logging. -/
def processDoc (d : DocRun) : List Event :=
  match d.fetch with
  | .error e => [.failureLogged d.name e]
  | .ok tmp =>
    .fetched d.name tmp ::
      ((innerBody d).1 ++
        (if inTempDir tmp then [.released d.name tmp] else []) ++
        (match (innerBody d).2 with
         | some e => [.failureLogged d.name e]
         | none => []))

/-- The trace of a full ingestion run (`main_indexing`): delete the named
collection when it already exists, create the new collection with vector
dimensionality 768 and cosine distance, then process every listed document in
order. -/
def main_indexing (collectionExists : Bool) (docs : List DocRun) : List Event :=
  (if collectionExists then [Event.deleteCollection] else []) ++
    [Event.createCollection 768 "cosine"] ++
    docs.flatMap processDoc

/-- Claim C3: a failure at any stage of one document — retrieval, extraction,
chunking, or embedding/upsert — is caught at the per-document boundary: the
run completes (the trace is total) and every other document whose stages all
succeed is still indexed, its chunks upserted. -/
theorem c3_per_document_isolation (collectionExists : Bool) (docs : List DocRun)
    (bad : DocRun) (_hbadMem : bad ∈ docs)
    (_hbadFails : ∃ e, bad.fetch = .error e ∨ bad.extract = .error e ∨
      bad.chunkOut = .error e ∨ bad.upsert = .error e)
    (d : DocRun) (hd : d ∈ docs) (tmp : String) (hfetch : d.fetch = .ok tmp)
    (hsupp : supportedExtension d.name = true)
    (content : String) (hextract : d.extract = .ok content)
    (chunks : List String) (hchunk : d.chunkOut = .ok chunks)
    (hupsert : d.upsert = .ok ()) :
    Event.upserted d.name chunks ∈ main_indexing collectionExists docs := by
  have hib : innerBody d = ([.upserted d.name chunks], none) := by
    rw [innerBody, if_pos hsupp, hextract, hchunk, hupsert]
  have hmem : Event.upserted d.name chunks ∈ processDoc d := by
    rw [processDoc, hfetch, hib]
    simp
  have hflat : Event.upserted d.name chunks ∈ docs.flatMap processDoc :=
    List.mem_flatMap_of_mem hd hmem
  rw [main_indexing, List.append_assoc]
  exact List.mem_append_right _ (List.mem_append_right _ hflat)

/-- Witness for Claim C3: a two-document run where the first document fails
at extraction and the second is fully processed and indexed. -/
theorem c3_per_document_isolation_witness :
    Event.upserted "b.txt" ["chunk0"] ∈ main_indexing true
      [⟨"a.pdf", .ok "/tmp/t1", .error "parse failure", .ok [], .ok ()⟩,
        ⟨"b.txt", .ok "/tmp/t2", .ok "text", .ok ["chunk0"], .ok ()⟩] :=
  c3_per_document_isolation true
    [⟨"a.pdf", .ok "/tmp/t1", .error "parse failure", .ok [], .ok ()⟩,
      ⟨"b.txt", .ok "/tmp/t2", .ok "text", .ok ["chunk0"], .ok ()⟩]
    ⟨"a.pdf", .ok "/tmp/t1", .error "parse failure", .ok [], .ok ()⟩
    (by simp)
    ⟨"parse failure", by simp⟩
    ⟨"b.txt", .ok "/tmp/t2", .ok "text", .ok ["chunk0"], .ok ()⟩
    (by simp) "/tmp/t2" rfl (by decide) "text" rfl ["chunk0"] rfl rfl

/-- Claim C4: every ingestion run deletes the existing named collection when
present and creates the new collection with vector dimensionality 768 and the
configured distance metric, and this happens before any per-document write:
in the run trace, the creation event precedes every upsert event, and the
deletion event (present exactly when the collection existed) precedes the
creation event. -/
theorem c4_collection_recreate_before_writes (collectionExists : Bool) (docs : List DocRun) :
    ∃ (ic : Nat) (hic : ic < (main_indexing collectionExists docs).length),
      (main_indexing collectionExists docs).get ⟨ic, hic⟩ =
          Event.createCollection 768 "cosine" ∧
        (∀ (j : Nat) (hj : j < (main_indexing collectionExists docs).length)
            (doc : String) (chunks : List String),
          (main_indexing collectionExists docs).get ⟨j, hj⟩ = Event.upserted doc chunks →
            ic < j) ∧
        (collectionExists = true →
          ∃ (kd : Nat) (hkd : kd < (main_indexing collectionExists docs).length),
            kd < ic ∧
              (main_indexing collectionExists docs).get ⟨kd, hkd⟩ = Event.deleteCollection) := by
  cases collectionExists with
  | false =>
    refine ⟨0, by simp [main_indexing], rfl, ?_, by simp⟩
    intro j hj doc chunks heq
    match j with
    | 0 =>
      have hcon : Event.createCollection 768 "cosine" = Event.upserted doc chunks := heq
      exact Event.noConfusion hcon
    | j + 1 => omega
  | true =>
    refine ⟨1, by simp [main_indexing], rfl, ?_, ?_⟩
    · intro j hj doc chunks heq
      match j with
      | 0 =>
        have hcon : Event.deleteCollection = Event.upserted doc chunks := heq
        exact Event.noConfusion hcon
      | 1 =>
        have hcon : Event.createCollection 768 "cosine" = Event.upserted doc chunks := heq
        exact Event.noConfusion hcon
      | j + 2 => omega
    · intro _
      exact ⟨0, by simp [main_indexing], by omega, rfl⟩

/-- Witness for Claim C4 at a concrete run over an existing collection and a
one-document list. -/
theorem c4_collection_recreate_before_writes_witness :
    ∃ (ic : Nat)
      (hic : ic <
        (main_indexing true [⟨"a.pdf", .ok "/tmp/t1", .ok "x", .ok ["c"], .ok ()⟩]).length),
      (main_indexing true [⟨"a.pdf", .ok "/tmp/t1", .ok "x", .ok ["c"], .ok ()⟩]).get
          ⟨ic, hic⟩ = Event.createCollection 768 "cosine" ∧
        (∀ (j : Nat)
            (hj : j <
              (main_indexing true
                [⟨"a.pdf", .ok "/tmp/t1", .ok "x", .ok ["c"], .ok ()⟩]).length)
            (doc : String) (chunks : List String),
          (main_indexing true [⟨"a.pdf", .ok "/tmp/t1", .ok "x", .ok ["c"], .ok ()⟩]).get
              ⟨j, hj⟩ = Event.upserted doc chunks → ic < j) ∧
        (true = true →
          ∃ (kd : Nat)
            (hkd : kd <
              (main_indexing true
                [⟨"a.pdf", .ok "/tmp/t1", .ok "x", .ok ["c"], .ok ()⟩]).length),
            kd < ic ∧
              (main_indexing true [⟨"a.pdf", .ok "/tmp/t1", .ok "x", .ok ["c"], .ok ()⟩]).get
                  ⟨kd, hkd⟩ = Event.deleteCollection) :=
  c4_collection_recreate_before_writes true
    [⟨"a.pdf", .ok "/tmp/t1", .ok "x", .ok ["c"], .ok ()⟩]

/-- Claim C5: for a document materialized as a temporary local file (a path
inside the temp directory, as every remote-backed `get_document` produces),
the file is released on every exit path of the per-document processing —
whatever the outcomes of extraction, chunking, embedding/upsert, and also on
the unsupported-extension skip — and the release happens before any event of
the documents processed afterwards. -/
theorem c5_temp_resource_released (collectionExists : Bool)
    (docs1 docs2 : List DocRun) (d : DocRun) (tmp : String)
    (hfetch : d.fetch = .ok tmp) (htmp : inTempDir tmp = true) :
    Event.released d.name tmp ∈ processDoc d ∧
      ∃ n, Event.released d.name tmp ∈
            (main_indexing collectionExists (docs1 ++ d :: docs2)).take n ∧
          (main_indexing collectionExists (docs1 ++ d :: docs2)).drop n =
            docs2.flatMap processDoc := by
  have hmem : Event.released d.name tmp ∈ processDoc d := by
    rw [processDoc, hfetch]
    refine List.mem_cons_of_mem _ ?_
    refine List.mem_append_left _ (List.mem_append_right _ ?_)
    simp [htmp]
  have hsplit : main_indexing collectionExists (docs1 ++ d :: docs2) =
      ((if collectionExists then [Event.deleteCollection] else []) ++
          [Event.createCollection 768 "cosine"] ++ docs1.flatMap processDoc ++
          processDoc d) ++ docs2.flatMap processDoc := by
    rw [main_indexing, List.flatMap_append, List.flatMap_cons]
    simp [List.append_assoc]
  refine ⟨hmem,
    ((if collectionExists then [Event.deleteCollection] else []) ++
        [Event.createCollection 768 "cosine"] ++ docs1.flatMap processDoc ++
        processDoc d).length, ?_, ?_⟩
  · rw [hsplit, List.take_left]
    exact List.mem_append_right _ hmem
  · rw [hsplit, List.drop_left]

/-- Witness for Claim C5: a one-document run whose document fails at
extraction; its temporary file under /tmp is still released, before the
(empty) remainder of the run. -/
theorem c5_temp_resource_released_witness :
    Event.released "a.pdf" "/tmp/t1" ∈
        processDoc ⟨"a.pdf", .ok "/tmp/t1", .error "boom", .ok [], .ok ()⟩ ∧
      ∃ n, Event.released "a.pdf" "/tmp/t1" ∈
            (main_indexing false
              ([] ++ ⟨"a.pdf", .ok "/tmp/t1", .error "boom", .ok [], .ok ()⟩ :: [])).take n ∧
          (main_indexing false
              ([] ++ ⟨"a.pdf", .ok "/tmp/t1", .error "boom", .ok [], .ok ()⟩ :: [])).drop n =
            List.flatMap [] processDoc :=
  c5_temp_resource_released false [] []
    ⟨"a.pdf", .ok "/tmp/t1", .error "boom", .ok [], .ok ()⟩ "/tmp/t1" rfl (by decide)

/-- Claim C6: a retrievable document whose name has none of the five
supported extensions is skipped as a silent no-op: its processing upserts
nothing and logs no failure, the skip is observable, and the run continues —
the whole trace is the trace over the earlier documents, followed by this
document's events, followed by the remaining documents' processing. -/
theorem c6_unsupported_skip (collectionExists : Bool) (docs1 docs2 : List DocRun)
    (d : DocRun) (tmp : String) (hfetch : d.fetch = .ok tmp)
    (hunsupp : supportedExtension d.name = false) :
    (∀ chunks, Event.upserted d.name chunks ∉ processDoc d) ∧
      (∀ e, Event.failureLogged d.name e ∉ processDoc d) ∧
      Event.skippedUnsupported d.name ∈ processDoc d ∧
      main_indexing collectionExists (docs1 ++ d :: docs2) =
        main_indexing collectionExists docs1 ++ processDoc d ++
          docs2.flatMap processDoc := by
  have hib : innerBody d = ([.skippedUnsupported d.name], none) := by
    rw [innerBody, hunsupp]
    simp
  have hpd : processDoc d = Event.fetched d.name tmp ::
      ([Event.skippedUnsupported d.name] ++
        (if inTempDir tmp then [Event.released d.name tmp] else []) ++ []) := by
    rw [processDoc, hfetch, hib]
  refine ⟨?_, ?_, ?_, ?_⟩
  · intro chunks hmem
    rw [hpd] at hmem
    by_cases h : inTempDir tmp <;> simp [h] at hmem
  · intro e hmem
    rw [hpd] at hmem
    by_cases h : inTempDir tmp <;> simp [h] at hmem
  · rw [hpd]
    simp
  · rw [main_indexing, main_indexing, List.flatMap_append, List.flatMap_cons]
    simp [List.append_assoc]

/-- Witness for Claim C6: a run over a single markdown document, which is
fetched, skipped, and neither indexed nor logged as a failure. -/
theorem c6_unsupported_skip_witness :
    (∀ chunks, Event.upserted "notes.md" chunks ∉
        processDoc ⟨"notes.md", .ok "/tmp/t3", .ok "", .ok [], .ok ()⟩) ∧
      (∀ e, Event.failureLogged "notes.md" e ∉
        processDoc ⟨"notes.md", .ok "/tmp/t3", .ok "", .ok [], .ok ()⟩) ∧
      Event.skippedUnsupported "notes.md" ∈
        processDoc ⟨"notes.md", .ok "/tmp/t3", .ok "", .ok [], .ok ()⟩ ∧
      main_indexing false
          ([] ++ ⟨"notes.md", .ok "/tmp/t3", .ok "", .ok [], .ok ()⟩ :: []) =
        main_indexing false [] ++
          processDoc ⟨"notes.md", .ok "/tmp/t3", .ok "", .ok [], .ok ()⟩ ++
          List.flatMap [] processDoc :=
  c6_unsupported_skip false [] [] ⟨"notes.md", .ok "/tmp/t3", .ok "", .ok [], .ok ()⟩
    "/tmp/t3" rfl (by decide)

/-! ### HTTP storage URL construction (src/backend/storage.py, HTTPStorage)

`get_document_url` strips leading slashes from the path, splits it on `/`,
percent-encodes every part with `requests.utils.quote(part, safe=\x27\x27)`
and joins the encoded parts back with literal `/` separators after the
`/documents/` prefix.  Python strings are modelled as their character
sequences. -/

/-- `str.lstrip` with the single strip character `/`. -/
def lstripSlash : List Char → List Char
  | [] => []
  | c :: t => if c = '/' then lstripSlash t else c :: t

/-- `str.rstrip` with the single strip character `/` (used on the base URL at
construction). -/
def rstripSlash (s : List Char) : List Char :=
  (lstripSlash s.reverse).reverse

/-- Python `str.split` on the separator `/`. -/
def splitSlash : List Char → List (List Char)
  | [] => [[]]
  | c :: t =>
    if c = '/' then [] :: splitSlash t
    else
      match splitSlash t with
      | [] => [[c]]
      | s :: ss => (c :: s) :: ss

/-- Python `"/".join`. -/
def joinSlash : List (List Char) → List Char
  | [] => []
  | [s] => s
  | s :: ss => s ++ '/' :: joinSlash ss

/-- The characters `quote` never encodes when `safe` is empty: ASCII letters,
digits, and `_ . - ~`. -/
def urlUnreserved (c : Char) : Bool :=
  c.isAlphanum || c = '_' || c = '.' || c = '-' || c = '~'

/-- Uppercase hexadecimal digits, as used by percent-encoding. -/
def hexDigits : List Char :=
  ['0', '1', '2', '3', '4', '5', '6', '7', '8', '9', 'A', 'B', 'C', 'D', 'E', 'F']

/-- The UTF-8 encoding of one character, as the byte values `quote` percent-
encodes for a non-ASCII character. -/
def utf8Bytes (c : Char) : List Nat :=
  let n := c.toNat
  if n < 128 then [n]
  else if n < 2048 then [192 + n / 64, 128 + n % 64]
  else if n < 65536 then [224 + n / 4096, 128 + (n / 64) % 64, 128 + n % 64]
  else [240 + n / 262144, 128 + (n / 4096) % 64, 128 + (n / 64) % 64, 128 + n % 64]

/-- `requests.utils.quote(part, safe=\x27\x27)` on one character: an
unreserved character stands for itself, any other character becomes `%XX` for
each of its UTF-8 bytes. -/
def pquoteChar (c : Char) : List Char :=
  if urlUnreserved c then [c]
  else (utf8Bytes c).flatMap
    (fun b => ['%', hexDigits.getD (b / 16) '0', hexDigits.getD (b % 16) '0'])

/-- `requests.utils.quote(part, safe=\x27\x27)` on a path segment. -/
def pquote (s : List Char) : List Char :=
  s.flatMap pquoteChar

/-- The HTTP storage backend: its stored base URL (already right-stripped of
slashes by the constructor). -/
structure HTTPStorage where
  base_url : List Char

/-- The `HTTPStorage` constructor: stores the base URL with trailing slashes
removed. -/
def HTTPStorage.init (raw : List Char) : HTTPStorage :=
  ⟨rstripSlash raw⟩

/-- `HTTPStorage.get_document_url`: strip leading slashes from the path,
percent-encode each `/`-separated part, rejoin with literal slashes, and
append to the base URL after `/documents/`. -/
def HTTPStorage.get_document_url (storage : HTTPStorage) (path : List Char) : List Char :=
  storage.base_url ++ "/documents/".toList ++
    joinSlash ((splitSlash (lstripSlash path)).map pquote)

/-- The URL shape Claim C7 asserts: the base URL, then `/documents/`, then
the given path with each of its segments individually percent-encoded and the
separators kept literal — with no stripping of leading slashes. -/
def claimedUrl (storage : HTTPStorage) (path : List Char) : List Char :=
  storage.base_url ++ "/documents/".toList ++ joinSlash ((splitSlash path).map pquote)

lemma splitSlash_ne_nil : ∀ s : List Char, splitSlash s ≠ [] := by
  intro s
  match s with
  | [] => simp [splitSlash]
  | c :: t =>
    rw [splitSlash]
    by_cases hc : c = '/'
    · simp [hc]
    · rw [if_neg hc]
      match h : splitSlash t with
      | [] => simp
      | s :: ss => simp

lemma hexDigit_mem (n : Nat) : hexDigits.getD n '0' ∈ hexDigits := by
  rcases Nat.lt_or_ge n hexDigits.length with h | h
  · rw [List.getD_eq_getElem hexDigits '0' h]
    exact List.getElem_mem h
  · rw [List.getD_eq_default hexDigits '0' h]
    decide

lemma slash_not_mem_pquoteChar (c : Char) : '/' ∉ pquoteChar c := by
  intro hmem
  rw [pquoteChar] at hmem
  by_cases hc : urlUnreserved c
  · rw [if_pos hc] at hmem
    simp only [List.mem_singleton] at hmem
    rw [← hmem] at hc
    exact absurd hc (by decide)
  · rw [if_neg hc] at hmem
    rw [List.mem_flatMap] at hmem
    obtain ⟨b, _, hb⟩ := hmem
    simp only [List.mem_cons, List.mem_singleton] at hb
    rcases hb with h1 | h2 | h3 | h4
    · exact absurd h1 (by decide)
    · have hin : '/' ∈ hexDigits := by rw [h2]; exact hexDigit_mem (b / 16)
      exact absurd hin (by decide)
    · have hin : '/' ∈ hexDigits := by rw [h3]; exact hexDigit_mem (b % 16)
      exact absurd hin (by decide)
    · simp at h4

lemma slash_not_mem_pquote (s : List Char) : '/' ∉ pquote s := by
  intro hmem
  rw [pquote, List.mem_flatMap] at hmem
  obtain ⟨c, _, hc⟩ := hmem
  exact slash_not_mem_pquoteChar c hc

lemma splitSlash_of_no_slash :
    ∀ (s : List Char), '/' ∉ s → splitSlash s = [s] := by
  intro s
  induction s with
  | nil => intro _; rfl
  | cons c t ih =>
    intro hs
    have hc : ¬ c = '/' := fun h => hs (by simp [h])
    have ht : '/' ∉ t := fun h => hs (List.mem_cons_of_mem c h)
    rw [splitSlash, if_neg hc, ih ht]

lemma splitSlash_append_slash :
    ∀ (s t : List Char), '/' ∉ s →
      splitSlash (s ++ '/' :: t) = s :: splitSlash t := by
  intro s
  induction s with
  | nil =>
    intro t _
    simp [splitSlash]
  | cons c s ih =>
    intro t hs
    have hc : ¬ c = '/' := fun h => hs (by simp [h])
    have hs2 : '/' ∉ s := fun h => hs (List.mem_cons_of_mem c h)
    have hrec := ih t hs2
    rw [List.cons_append, splitSlash, if_neg hc, hrec]

lemma splitSlash_joinSlash :
    ∀ (l : List (List Char)), l ≠ [] → (∀ s ∈ l, '/' ∉ s) →
      splitSlash (joinSlash l) = l := by
  intro l
  induction l with
  | nil => intro h _; exact absurd rfl h
  | cons s l ih =>
    intro _ hsl
    match l with
    | [] =>
      rw [joinSlash]
      exact splitSlash_of_no_slash s (hsl s (by simp))
    | s2 :: l2 =>
      rw [show joinSlash (s :: s2 :: l2) = s ++ '/' :: joinSlash (s2 :: l2) from rfl]
      rw [splitSlash_append_slash s _ (hsl s (by simp))]
      rw [ih (List.cons_ne_nil s2 l2) (fun x hx => hsl x (List.mem_cons_of_mem s hx))]

/-- Claim C7, corrected by the leading-slash stripping the source performs:
for every document path, `get_document_url` of the HTTP backend returns
`base_url ++ "/documents/" ++ enc`, where `enc` is the path stripped of
leading slashes with each `/`-separated segment individually percent-encoded
and the separators kept literal — splitting `enc` on `/` recovers exactly the
per-segment encodings. -/
theorem c7_url_segment_encoding (storage : HTTPStorage) (path : List Char) :
    ∃ enc, storage.get_document_url path =
        storage.base_url ++ "/documents/".toList ++ enc ∧
      splitSlash enc = (splitSlash (lstripSlash path)).map pquote ∧
      enc = joinSlash ((splitSlash (lstripSlash path)).map pquote) := by
  refine ⟨joinSlash ((splitSlash (lstripSlash path)).map pquote), rfl, ?_, rfl⟩
  apply splitSlash_joinSlash
  · intro hmap
    exact splitSlash_ne_nil (lstripSlash path) (List.map_eq_nil_iff.mp hmap)
  · intro s hs
    obtain ⟨seg, _, rfl⟩ := List.mem_map.mp hs
    exact slash_not_mem_pquote seg

/-- Counterexample to Claim C7 as stated: for the path "/a b" (leading slash,
embedded space) the source strips the leading slash, so the returned URL is
not the claimed base ++ "/documents/" ++ per-segment-encoded path, which
would keep the empty leading segment. -/
theorem c7_counterexample :
    HTTPStorage.get_document_url ⟨"http://ds:8080".toList⟩ "/a b".toList ≠
      claimedUrl ⟨"http://ds:8080".toList⟩ "/a b".toList := by
  decide

/-! ### PDF text extraction (src/backend/rag.py, PDF branch)

The PDF branch starts from the empty string and, for each page in order,
appends a space followed by that page's extracted text. -/

/-- The PDF extraction loop over the per-page extracted texts. -/
def extract_pdf (pages : List (List Char)) : List Char :=
  pages.foldl (fun acc t => acc ++ ' ' :: t) []

/-- Page texts joined by single separating spaces, the shape Claim C8
asserts. -/
def joinSpace : List (List Char) → List Char
  | [] => []
  | [s] => s
  | s :: ss => s ++ ' ' :: joinSpace ss

lemma extract_pdf_foldl :
    ∀ (pages : List (List Char)) (acc : List Char),
      pages.foldl (fun acc t => acc ++ ' ' :: t) acc =
        acc ++ pages.flatMap (fun t => ' ' :: t) := by
  intro pages
  induction pages with
  | nil => intro acc; simp
  | cons p ps ih =>
    intro acc
    rw [List.foldl_cons, ih, List.flatMap_cons, List.append_assoc]

lemma flatMap_space_eq_joinSpace :
    ∀ (pages : List (List Char)), pages ≠ [] →
      pages.flatMap (fun t => ' ' :: t) = ' ' :: joinSpace pages := by
  intro pages
  induction pages with
  | nil => intro h; exact absurd rfl h
  | cons p ps ih =>
    intro _
    match ps with
    | [] => simp [joinSpace]
    | q :: qs =>
      rw [List.flatMap_cons, ih (List.cons_ne_nil q qs)]
      rw [show joinSpace (p :: q :: qs) = p ++ ' ' :: joinSpace (q :: qs) from rfl]
      simp

/-- Claim C8, corrected: the extracted text of a PDF is not the page texts
joined by single spaces; it is a single leading space followed by the page
texts joined by single spaces (each page contributes a space followed by its
text), and the empty page list yields the empty text. -/
theorem c8_pdf_leading_space (pages : List (List Char)) :
    (pages = [] → extract_pdf pages = []) ∧
      (pages ≠ [] → extract_pdf pages = ' ' :: joinSpace pages) := by
  constructor
  · intro h
    subst h
    rfl
  · intro h
    rw [extract_pdf, extract_pdf_foldl, flatMap_space_eq_joinSpace pages h]
    rfl

/-- Witness for Claim C8 (corrected form) at a concrete two-page document. -/
theorem c8_pdf_leading_space_witness :
    extract_pdf ["page one".toList, "page two".toList] =
      ' ' :: joinSpace ["page one".toList, "page two".toList] :=
  (c8_pdf_leading_space ["page one".toList, "page two".toList]).2 (by decide)

/-- Counterexample to Claim C8 as stated: for a concrete two-page document
the code's extracted text (leading space) differs from the page texts joined
by single spaces. -/
theorem c8_counterexample :
    extract_pdf ["page one".toList, "page two".toList] ≠
      joinSpace ["page one".toList, "page two".toList] := by
  decide



